import Mathlib

/-!
# A verification model of `idb.ts` (haiix/idb)

Shallow embedding of the request-scheduling and schema-migration
coordinator in `src/idb.ts`.  Pure data is modelled directly; the
stateful scheduler (`Idb`) becomes explicit state passing; the engine
(IndexedDB) is modelled by an explicit database value, and each engine
interaction performed by a commit pass is recorded as an `Event` in a
trace.  Fallible engine calls (`db.transaction` on an absent store name)
return `Except`.

Naming follows the source: `requestToCommit`, `commit`, `processReqs`,
`processUpgReqs`, `isNeedToUpg`, `isNeedToIUpg`, `addUpgIRec`,
`objectStore`, `deleteObjectStore`, `deleteIndex`, `cursorWrapper`, the
`register` wrapper of `IdbStoreBase`, and the per-operation transaction
modes of `IdbStoreBase` / `IdbStore`.
-/

deriving instance DecidableEq for Except

namespace IdbModel

abbrev StoreName := String
abbrev IndexName := String

/-- The create/delete method tag of `UpgReq` / `UpgIReq` (idb.ts lines 12-22). -/
inductive UpgMethod
  | create
  | delete
deriving DecidableEq, Repr

/-- Type `IDBTransactionMode` restricted to the two modes the library uses. -/
inductive TxMode
  | readonly
  | readwrite
deriving DecidableEq, Repr

/-- The schema of the engine: object stores in creation order, each with its
index names in creation order. -/
structure Schema where
  stores : List (StoreName × List IndexName)
deriving DecidableEq, Repr

def Schema.containsStore (sc : Schema) (n : StoreName) : Bool :=
  sc.stores.any (fun p => p.1 == n)

def Schema.indexNamesOf (sc : Schema) (n : StoreName) : List IndexName :=
  ((sc.stores.find? (fun p => p.1 == n)).map Prod.snd).getD []

def Schema.containsIndex (sc : Schema) (os : StoreName) (idx : IndexName) : Bool :=
  (sc.indexNamesOf os).contains idx

/-- Engine `db.createObjectStore`. -/
def Schema.createStore (sc : Schema) (n : StoreName) : Schema :=
  ⟨sc.stores ++ [(n, [])]⟩

/-- Engine `db.deleteObjectStore`. -/
def Schema.deleteStore (sc : Schema) (n : StoreName) : Schema :=
  ⟨sc.stores.filter (fun p => p.1 != n)⟩

/-- Engine `objectStore.createIndex`. -/
def Schema.createIndex (sc : Schema) (os : StoreName) (idx : IndexName) : Schema :=
  ⟨sc.stores.map (fun p => if p.1 == os then (p.1, p.2 ++ [idx]) else p)⟩

/-- Engine `objectStore.deleteIndex`. -/
def Schema.deleteIndex (sc : Schema) (os : StoreName) (idx : IndexName) : Schema :=
  ⟨sc.stores.map (fun p => if p.1 == os then (p.1, p.2.filter (fun i => i != idx)) else p)⟩

/-- The engine database: stored version plus schema. -/
structure EngineDb where
  version : Nat
  schema : Schema
deriving DecidableEq, Repr

/-- One entry of `Idb.upgReqs` (store-scoped schema intent).  The closure
pushed by `objectStore` / `deleteObjectStore` is determined by the name
and the method (it self-checks existence), so it is represented by them. -/
structure UpgReq where
  name : StoreName
  method : UpgMethod
deriving DecidableEq, Repr

/-- One entry of an `Idb.upgIReqs` bucket (index-scoped schema intent). -/
structure UpgIReq where
  name : IndexName
  method : UpgMethod
deriving DecidableEq, Repr

/-- One entry of `Idb.reqs`.  The queued closure is identified by `opId`
(the future it settles); its store name and registered mode are the data
`processReqs` inspects. -/
structure Req where
  osName : StoreName
  mode : TxMode
  opId : Nat
deriving DecidableEq, Repr

/-- The mutable fields of class `Idb` (idb.ts lines 61-64).  `upgIReqs`
is a string-keyed dictionary with insertion-ordered keys, modelled as an
association list. -/
structure IdbState where
  upgReqs : List UpgReq
  upgIReqs : List (StoreName × List UpgIReq)
  reqs : List Req
  isCommitRequested : Bool
deriving DecidableEq, Repr

/-- A freshly constructed handle: `new Idb(name)`. -/
def idbInit : IdbState := ⟨[], [], [], false⟩

/-- Model of `Idb.addUpgIRec` (idb.ts lines 112-117): push into the bucket of
`objectStoreName`, creating the bucket on first use. -/
def addUpgIRec (d : List (StoreName × List UpgIReq)) (os : StoreName) (r : UpgIReq) :
    List (StoreName × List UpgIReq) :=
  if d.any (fun p => p.1 == os) then
    d.map (fun p => if p.1 == os then (p.1, p.2 ++ [r]) else p)
  else
    d ++ [(os, [r])]

/-- The self-checking closure pushed by `objectStore` (create) and
`deleteObjectStore` (delete), applied to the engine schema
(idb.ts lines 135-143 and 165-169). -/
def applyUpgReq (m : UpgMethod) (n : StoreName) (sc : Schema) : Schema :=
  match m with
  | .create => if sc.containsStore n then sc else sc.createStore n
  | .delete => if sc.containsStore n then sc.deleteStore n else sc

/-- The self-checking closure pushed by the index loop of `objectStore`
(create) and `deleteIndex` (delete), applied to the engine schema
(idb.ts lines 150-155 and 178-182). -/
def applyUpgIReq (os : StoreName) (m : UpgMethod) (idx : IndexName) (sc : Schema) : Schema :=
  match m with
  | .create => if sc.containsIndex os idx then sc else sc.createIndex os idx
  | .delete => if sc.containsIndex os idx then sc.deleteIndex os idx else sc

/-- Errors surfaced by the engine in the modelled paths: opening a
transaction over an absent object-store name throws. -/
inductive IdbError
  | storeNotFound (n : StoreName)
deriving DecidableEq, Repr

/-- Model of `Idb.isNeedToUpg` (idb.ts lines 187-198). -/
def isNeedToUpg (sc : Schema) (upgReqs : List UpgReq) : Bool :=
  upgReqs.any (fun r =>
    match r.method with
    | .create => !(sc.containsStore r.name)
    | .delete => sc.containsStore r.name)

/-- Model of `Idb.isNeedToIUpg` (idb.ts lines 200-222): empty dictionary answers
`false` without opening a transaction; otherwise a read-only transaction
over the bucket keys is opened (throwing if a key names an absent store)
and each bucket entry is checked against the index names of the store. -/
def isNeedToIUpg (sc : Schema) (d : List (StoreName × List UpgIReq)) :
    Except IdbError Bool :=
  if d.isEmpty then .ok false
  else
    match d.find? (fun p => !(sc.containsStore p.1)) with
    | some p => .error (.storeNotFound p.1)
    | none =>
      .ok (d.any (fun p => p.2.any (fun r =>
        match r.method with
        | .create => !(sc.containsIndex p.1 r.name)
        | .delete => sc.containsIndex p.1 r.name)))

/-- Trace of the engine interactions performed by a commit pass. -/
inductive Event
  | openSession (requested : Option Nat)
  | upgradeRun (newVersion : Nat)
  | applyStore (name : StoreName) (m : UpgMethod)
  | applyIndex (os : StoreName) (idx : IndexName) (m : UpgMethod)
  | inspectTx (stores : List StoreName)
  | txOpen (stores : List StoreName) (m : TxMode)
  | invoke (opId : Nat)
deriving DecidableEq, Repr

/-- Accumulator pass of `distinctNames`: keep each element whose first
occurrence has not been seen yet. -/
def distinctAux (seen : List StoreName) : List StoreName → List StoreName
  | [] => []
  | a :: rest =>
    if a ∈ seen then distinctAux seen rest
    else a :: distinctAux (seen ++ [a]) rest

/-- Model of `[...new Set(list)]`: the distinct elements in first-seen order. -/
def distinctNames (l : List StoreName) : List StoreName :=
  distinctAux [] l

/-- Model of `[...new Set(this.reqs.map(([name]) => name))]` (idb.ts line 281). -/
def impliedStoreNames (reqs : List Req) : List StoreName :=
  distinctNames (reqs.map (fun r => r.osName))

/-- The mode computation of `processReqs` (idb.ts lines 282-284). -/
def impliedMode (reqs : List Req) : TxMode :=
  if reqs.all (fun r => r.mode == .readonly) then .readonly else .readwrite

/-- Model of `Idb.processReqs` (idb.ts lines 278-292): nothing when the queue is
empty; otherwise one transaction over the distinct referenced store
names, in the implied mode, invoking every queued closure in submission
order.  Opening the transaction throws if a referenced store is absent. -/
def processReqs (sc : Schema) (reqs : List Req) : Except IdbError (List Event) :=
  if reqs.isEmpty then .ok []
  else
    match (impliedStoreNames reqs).find? (fun n => !(sc.containsStore n)) with
    | some n => .error (.storeNotFound n)
    | none =>
      .ok (Event.txOpen (impliedStoreNames reqs) (impliedMode reqs)
        :: reqs.map (fun r => Event.invoke r.opId))

/-- Left fold of the store-scoped apply closures (`processUpgReqs` first loop). -/
def applyUpgReqs (sc : Schema) (urs : List UpgReq) : Schema :=
  urs.foldl (fun s r => applyUpgReq r.method r.name s) sc

/-- Left fold of the index apply closures of one bucket. -/
def applyUpgIReqsFor (sc : Schema) (os : StoreName) (rs : List UpgIReq) : Schema :=
  rs.foldl (fun s r => applyUpgIReq os r.method r.name s) sc

/-- Model of `Idb.processUpgReqs` (idb.ts lines 263-276): run every store-scoped
apply function, then for each dictionary bucket obtain the store from the
upgrade transaction (throwing if absent) and run its index apply
functions.  Returns the mutated schema and the apply events in order. -/
def processUpgReqs (sc : Schema) (urs : List UpgReq)
    (irs : List (StoreName × List UpgIReq)) :
    Except IdbError (Schema × List Event) :=
  match irs.find? (fun p => !((applyUpgReqs sc urs).containsStore p.1)) with
  | some p => .error (.storeNotFound p.1)
  | none =>
    .ok (irs.foldl (fun s p => applyUpgIReqsFor s p.1 p.2) (applyUpgReqs sc urs),
      urs.map (fun r => Event.applyStore r.name r.method)
        ++ (irs.map (fun p => p.2.map (fun r => Event.applyIndex p.1 r.name r.method))).flatten)

/-- The read-only inspection transaction `isNeedToIUpg` opens when the
index dictionary is non-empty. -/
def inspectEvents (s : IdbState) : List Event :=
  if s.upgIReqs.isEmpty then [] else [Event.inspectTx (s.upgIReqs.map (fun p => p.1))]

/-- The version-bump branch of `Idb.commit` (idb.ts lines 239-240 and
249-256): target version is `db.version + 1`; the session is reopened
requesting it; the upgrade callback runs `processUpgReqs`; afterwards
`processReqs` runs in the same session. -/
def commitUpgrade (s : IdbState) (db : EngineDb) (iEv : List Event) :
    Except IdbError (IdbState × EngineDb × List Event) :=
  let v := db.version + 1
  match processUpgReqs db.schema s.upgReqs s.upgIReqs with
  | .error e => .error e
  | .ok (sc2, upgEv) =>
    match processReqs sc2 s.reqs with
    | .error e => .error e
    | .ok dataEv =>
      .ok ({ s with upgReqs := [], upgIReqs := [], reqs := [] },
        ⟨v, sc2⟩,
        Event.openSession none :: iEv
          ++ Event.openSession (some v) :: Event.upgradeRun v :: (upgEv ++ dataEv))

/-- Model of `Idb.commit` (idb.ts lines 235-261).  The necessity inspection is
gated on `upgReqs` being non-empty; `isNeedToIUpg` is evaluated only when
`isNeedToUpg` answers `false` (short-circuit `||`).  When no intent is
necessary both ledgers are dropped and `processReqs` runs inside the
inspection session; when the ledger is store-empty the data queue (if
any) is served by a plain session. -/
def commit (s : IdbState) (db : EngineDb) :
    Except IdbError (IdbState × EngineDb × List Event) :=
  if s.upgReqs.isEmpty then
    if s.reqs.isEmpty then .ok (s, db, [])
    else
      match processReqs db.schema s.reqs with
      | .error e => .error e
      | .ok dataEv => .ok ({ s with reqs := [] }, db, Event.openSession none :: dataEv)
  else
    if isNeedToUpg db.schema s.upgReqs then
      commitUpgrade s db []
    else
      match isNeedToIUpg db.schema s.upgIReqs with
      | .error e => .error e
      | .ok true => commitUpgrade s db (inspectEvents s)
      | .ok false =>
        match processReqs db.schema s.reqs with
        | .error e => .error e
        | .ok dataEv =>
          .ok ({ s with upgReqs := [], upgIReqs := [], reqs := [] }, db,
            Event.openSession none :: (inspectEvents s ++ dataEv))

/-- Model of `Idb.requestToCommit` (idb.ts lines 224-233) up to its suspension
point: push the optional request, then either schedule the deferred
commit (returning `true`: this call will await the commit) or return at
once because one is already scheduled. -/
def requestToCommit (s : IdbState) (r : Option Req) : IdbState × Bool :=
  let s1 :=
    match r with
    | some req => { s with reqs := s.reqs ++ [req] }
    | none => s
  if s1.isCommitRequested then (s1, false)
  else ({ s1 with isCommitRequested := true }, true)

/-- One synchronous burst of data registrations: each operation calls
`requestToCommit`; the count accumulates how many of those calls
scheduled a deferred commit continuation. -/
def enqueueBurst (s : IdbState) : List Req → IdbState × Nat
  | [] => (s, 0)
  | r :: rest =>
    let q := requestToCommit s (some r)
    let p := enqueueBurst q.1 rest
    (p.1, (if q.2 then 1 else 0) + p.2)

/-- Which `register` calls of a burst bound their future to the commit
outcome: exactly the calls whose `requestToCommit` awaited the commit. -/
def burstAwaiters (s : IdbState) : List Req → List Bool
  | [] => []
  | r :: rest =>
    let q := requestToCommit s (some r)
    q.2 :: burstAwaiters q.1 rest

/-- A full burst: enqueue every operation, then run the deferred
continuation (if one was scheduled): reset `isCommitRequested`
(idb.ts line 231) and run `commit`. -/
def runBurst (s : IdbState) (db : EngineDb) (ops : List Req) :
    Except IdbError (IdbState × EngineDb × List Event) :=
  let p := enqueueBurst s ops
  if p.2 == 0 then .ok (p.1, db, [])
  else commit { p.1 with isCommitRequested := false } db

/-- A sequence of bursts, each awaited to completion before the next
is issued; the traces concatenate in order. -/
def runBursts (s : IdbState) (db : EngineDb) :
    List (List Req) → Except IdbError (IdbState × EngineDb × List Event)
  | [] => .ok (s, db, [])
  | b :: rest =>
    match runBurst s db b with
    | .error e => .error e
    | .ok (s1, db1, ev1) =>
      match runBursts s1 db1 rest with
      | .error e => .error e
      | .ok (s2, db2, ev2) => .ok (s2, db2, ev1 ++ ev2)

/-- Count of data transactions opened in a trace. -/
def countTxOpen (ev : List Event) : Nat :=
  ev.countP (fun e =>
    match e with
    | .txOpen _ _ => true
    | _ => false)

/-- The closure invocations of a trace, in order. -/
def invokedIds (ev : List Event) : List Nat :=
  ev.filterMap (fun e =>
    match e with
    | .invoke i => some i
    | _ => none)

/-! ## Library-level operations and their registered transaction modes -/

/-- The data operations of `IdbStoreBase` / `IdbStore`. -/
inductive StoreOp
  | get
  | getAll
  | getAllKeys
  | getKey
  | count
  | keyPath
  | add
  | put
  | del
  | clear
  | openCursor
  | openKeyCursor
deriving DecidableEq, Repr

/-- The mode each operation passes to `register` / `registerQuery` /
`registerCursor` (idb.ts lines 349-395 and 403-433): reads register
read-only, writes read-write, and both cursor openers register
read-write (lines 383 and 392). -/
def registeredMode : StoreOp → TxMode
  | .get => .readonly
  | .getAll => .readonly
  | .getAllKeys => .readonly
  | .getKey => .readonly
  | .count => .readonly
  | .keyPath => .readonly
  | .add => .readwrite
  | .put => .readwrite
  | .del => .readwrite
  | .clear => .readwrite
  | .openCursor => .readwrite
  | .openKeyCursor => .readwrite

/-- Modelled from the spec: the notion the claim has of a *write* operation
(`add`, `put`, `delete`, `clear`), used to compare the mode rule of the spec
against that of the code. -/
def specWriteOp : StoreOp → Bool
  | .add => true
  | .put => true
  | .del => true
  | .clear => true
  | _ => false

/-- A library-level call: an operation against a named store, settling
the future identified by `opId`. -/
structure OpCall where
  osName : StoreName
  op : StoreOp
  opId : Nat
deriving DecidableEq, Repr

/-- The queue entries a burst of library calls pushes (each `register`
pushes `[osName, mode, closure]`). -/
def reqsOf (calls : List OpCall) : List Req :=
  calls.map (fun c => ⟨c.osName, registeredMode c.op, c.opId⟩)

/-! ## Schema-declaring API calls -/

/-- Model of `Idb.objectStore` (idb.ts lines 127-159): pushes a create intent for
the store and a create intent per requested index.  Its body contains no
`commit` or `requestToCommit` call: it requests no flush. -/
def objectStoreCall (s : IdbState) (name : StoreName) (indices : List IndexName) :
    IdbState :=
  let s1 := { s with upgReqs := s.upgReqs ++ [⟨name, .create⟩] }
  indices.foldl
    (fun st idx => { st with upgIReqs := addUpgIRec st.upgIReqs name ⟨idx, .create⟩ }) s1

/-- Model of `Idb.deleteObjectStore` (idb.ts lines 161-172): pushes a delete
intent and then returns `this.commit()` — the commit pass is invoked
directly and immediately, not through `requestToCommit`. -/
def deleteObjectStoreCall (s : IdbState) (db : EngineDb) (name : StoreName) :
    Except IdbError (IdbState × EngineDb × List Event) :=
  commit { s with upgReqs := s.upgReqs ++ [⟨name, .delete⟩] } db

/-- Model of `Idb.deleteIndex` (idb.ts lines 174-185): pushes a delete intent
into the index dictionary and then returns `this.commit()` directly. -/
def deleteIndexCall (s : IdbState) (db : EngineDb) (os : StoreName) (idx : IndexName) :
    Except IdbError (IdbState × EngineDb × List Event) :=
  commit { s with upgIReqs := addUpgIRec s.upgIReqs os ⟨idx, .delete⟩ } db

/-! ## Failure settlement model

`register` (idb.ts lines 312-333) creates the future of the operation and
attaches a rejection handler to the promise returned by its own
`requestToCommit` call.  Only the call that found `isCommitRequested`
unset awaits the commit (lines 228-232); the promises of the other calls
resolve immediately, so their handlers never fire. -/

/-- Errors as reported to callers. -/
inductive ErrMsg
  | engine (code : Nat)
  | requestFailed
  | transactionFailed
deriving DecidableEq, Repr

/-- Settlement state of the future of one operation. -/
inductive FutureState
  | pending
  | resolvedOk
  | rejected (e : ErrMsg)
deriving DecidableEq, Repr

/-- Model of the `queryWrapper` `onerror` fallback chain (idb.ts lines 41-45):
`req.error ?? req.transaction?.error ?? new Error(...)`, ending
in a generic request-failed error. -/
def rejectionError (reqError : Option ErrMsg) (txError : Option ErrMsg) : ErrMsg :=
  reqError.getD (txError.getD .requestFailed)

/-- Model of the `Idb.transaction` `onerror` fallback (idb.ts line 101):
`tx.error ?? new Error(...)`, ending in a generic transaction-failed error. -/
def transactionError (txError : Option ErrMsg) : ErrMsg :=
  txError.getD .transactionFailed

/-- Settlement of the futures of a burst when opening the engine session
fails with `e`: the commit pass rejects before any queued closure runs,
so a future is rejected (by the `.catch` of its `register`) exactly when its
own `requestToCommit` call awaited the commit; every other future stays
pending and its queue entry is retained. -/
def openFailureOutcome (s : IdbState) (ops : List Req) (e : ErrMsg) : List FutureState :=
  (burstAwaiters s ops).map (fun b => if b then .rejected e else .pending)

/-- Settlement of the futures of a burst when the shared transaction errors
after the closures ran: the request of each operation fires `onerror`, and its
future rejects with the `queryWrapper` fallback chain over the error
of the request itself, then the error of the transaction. -/
def txErrorOutcome (reqErrors : List (Option ErrMsg)) (txError : Option ErrMsg) :
    List FutureState :=
  reqErrors.map (fun re => .rejected (rejectionError re txError))

/-! ## Synchronous-throw model

`Idb.transaction` (idb.ts lines 88-110) aborts the transaction iff its
callback throws; the queued closures built by `register` wrap the user
callback in `try`/`catch` (lines 321-327), settling the future and
letting no exception escape. -/

/-- Outcome of a user-level operation callback. -/
inductive CbOutcome
  | ok
  | throws (e : ErrMsg)
deriving DecidableEq, Repr

/-- Outcome of invoking one queued (raw) closure: return or escape. -/
inductive RawOutcome
  | ret
  | exn (e : ErrMsg)
deriving DecidableEq, Repr

/-- Sequential invocation of queued closures (the `processReqs` loop):
returns how many closures were invoked and the first escaping
exception, if any (the loop stops there). -/
def runClosureList : List RawOutcome → Nat × Option ErrMsg
  | [] => (0, none)
  | .ret :: rest =>
    let p := runClosureList rest
    (p.1 + 1, p.2)
  | .exn e :: _ => (1, some e)

/-- Result of `Idb.transaction` over a closure list. -/
structure TxRun where
  invoked : Nat
  aborted : Bool
  failure : Option ErrMsg
deriving DecidableEq, Repr

/-- Model of `Idb.transaction` (idb.ts lines 88-110): run the callback; if it
throws, `tx.abort()` is called and the error propagates; otherwise the
transaction is left to complete. -/
def transactionRun (cbs : List RawOutcome) : TxRun :=
  let p := runClosureList cbs
  match p.2 with
  | some e => ⟨p.1, true, some e⟩
  | none => ⟨p.1, false, none⟩

/-- The queued closure `register` builds from a user callback
(idb.ts lines 321-327): `try { resolve(callback(...)) } catch (error)
{ reject(error) }` — it settles the future and never lets the
exception escape. -/
def registerWrap (cb : CbOutcome) : RawOutcome × FutureState :=
  match cb with
  | .ok => (.ret, .resolvedOk)
  | .throws e => (.ret, .rejected e)

/-- The shared transaction of a commit pass over register-wrapped user
callbacks: the transaction outcome and the settlements of the futures. -/
def runBurstClosures (cbs : List CbOutcome) : TxRun × List FutureState :=
  (transactionRun (cbs.map (fun c => (registerWrap c).1)),
   cbs.map (fun c => (registerWrap c).2))

/-! ## Cursor model

`cursorWrapper` (idb.ts lines 49-56) loops awaiting `queryWrapper` on
the cursor request and yields each non-null result; the loop ends at the
first null.  The successive engine answers to the cursor request are
modelled as a list of polls. -/

/-- One engine answer to a cursor-advance request. -/
inductive Poll (α : Type)
  | err (e : ErrMsg)
  | done
  | val (a : α)
deriving DecidableEq, Repr

/-- Exhausting `cursorWrapper`: the yielded elements, stopping exactly
at the first terminal marker, or the error of a failed advance. -/
def cursorDrain {α : Type} : List (Poll α) → Except ErrMsg (List α)
  | [] => .ok []
  | .err e :: _ => .error e
  | .done :: _ => .ok []
  | .val a :: rest => (cursorDrain rest).map (fun l => a :: l)

/-- A consumer that pulls at most `k` elements and then stops: the
elements obtained and the number of engine polls consumed.  Stopping
early performs no further poll — later engine answers are never
evaluated. -/
def cursorPull {α : Type} : Nat → List (Poll α) → Except ErrMsg (List α × Nat)
  | 0, _ => .ok ([], 0)
  | _ + 1, [] => .ok ([], 0)
  | _ + 1, .err e :: _ => .error e
  | _ + 1, .done :: _ => .ok ([], 1)
  | k + 1, .val a :: rest => (cursorPull k rest).map (fun p => (a :: p.1, p.2 + 1))

/-! ## Helper lemmas -/

theorem mem_distinctAux {l seen : List StoreName} {a : StoreName} :
    a ∈ distinctAux seen l ↔ a ∈ l ∧ a ∉ seen := by
  induction l generalizing seen with
  | nil => simp [distinctAux]
  | cons x rest ih =>
    rw [distinctAux]
    by_cases hx : x ∈ seen
    · rw [if_pos hx, ih]
      simp only [List.mem_cons]
      constructor
      · rintro ⟨h1, h2⟩; exact ⟨Or.inr h1, h2⟩
      · rintro ⟨h1 | h1, h2⟩
        · exact absurd (h1 ▸ hx) h2
        · exact ⟨h1, h2⟩
    · rw [if_neg hx]
      simp only [List.mem_cons, ih, List.mem_append, List.mem_singleton]
      constructor
      · rintro (rfl | ⟨h1, h2⟩)
        · exact ⟨Or.inl rfl, hx⟩
        · exact ⟨Or.inr h1, fun hs => h2 (Or.inl hs)⟩
      · rintro ⟨rfl | h1, h2⟩
        · exact Or.inl rfl
        · by_cases hax : a = x
          · exact Or.inl hax
          · refine Or.inr ⟨h1, fun hs => ?_⟩
            rcases hs with hs | hs
            · exact h2 hs
            · simp at hs
              exact hax hs

theorem mem_distinctNames {l : List StoreName} {a : StoreName} :
    a ∈ distinctNames l ↔ a ∈ l := by
  rw [distinctNames, mem_distinctAux]
  simp

theorem nodup_distinctAux (l seen : List StoreName) : (distinctAux seen l).Nodup := by
  induction l generalizing seen with
  | nil => simp [distinctAux]
  | cons x rest ih =>
    rw [distinctAux]
    by_cases hx : x ∈ seen
    · rw [if_pos hx]; exact ih _
    · rw [if_neg hx]
      refine List.nodup_cons.mpr ⟨fun hmem => ?_, ih _⟩
      have := (mem_distinctAux.mp hmem).2
      simp at this

theorem nodup_distinctNames (l : List StoreName) : (distinctNames l).Nodup :=
  nodup_distinctAux l []

theorem mem_impliedStoreNames {reqs : List Req} {n : StoreName} :
    n ∈ impliedStoreNames reqs ↔ n ∈ reqs.map (fun r => r.osName) :=
  mem_distinctNames

theorem impliedMode_eq_readonly_iff (reqs : List Req) :
    impliedMode reqs = .readonly ↔ ∀ r ∈ reqs, r.mode = .readonly := by
  unfold impliedMode
  by_cases h : reqs.all (fun r => r.mode == .readonly)
  · simp only [h, if_true, true_iff]
    intro r hr
    have := List.all_eq_true.mp h r hr
    simpa using this
  · simp only [h, if_false]
    constructor
    · intro hc; exact absurd hc (by simp)
    · intro hall
      exact absurd (List.all_eq_true.mpr (fun r hr => by simp [hall r hr])) h

theorem processReqs_ok {sc : Schema} {reqs : List Req}
    (hne : reqs ≠ [])
    (hst : ∀ r ∈ reqs, sc.containsStore r.osName = true) :
    processReqs sc reqs =
      .ok (Event.txOpen (impliedStoreNames reqs) (impliedMode reqs)
        :: reqs.map (fun r => Event.invoke r.opId)) := by
  unfold processReqs
  have hemp : reqs.isEmpty = false := by
    cases reqs with
    | nil => exact absurd rfl hne
    | cons a l => rfl
  rw [hemp]
  have hfind : (impliedStoreNames reqs).find? (fun n => !(sc.containsStore n)) = none := by
    rw [List.find?_eq_none]
    intro n hn
    obtain ⟨r, hr, hrn⟩ := List.mem_map.mp (mem_impliedStoreNames.mp hn)
    simp [← hrn, hst r hr]
  rw [hfind]
  simp

theorem invokedIds_append (a b : List Event) :
    invokedIds (a ++ b) = invokedIds a ++ invokedIds b := by
  simp [invokedIds]

theorem invokedIds_invoke_map (ops : List Req) :
    invokedIds (ops.map (fun r => Event.invoke r.opId)) = ops.map (fun r => r.opId) := by
  induction ops with
  | nil => rfl
  | cons r rest ih => simp [invokedIds, List.filterMap_cons] at ih ⊢; exact ih

theorem countTxOpen_invoke_map (ops : List Req) :
    countTxOpen (ops.map (fun r => Event.invoke r.opId)) = 0 := by
  induction ops with
  | nil => rfl
  | cons r rest ih => simp [countTxOpen, List.countP_cons, ih]

theorem enqueueBurst_spec (ops : List Req) (s : IdbState) :
    enqueueBurst s ops =
      ({ s with reqs := s.reqs ++ ops, isCommitRequested := s.isCommitRequested || !ops.isEmpty },
        if s.isCommitRequested || ops.isEmpty then 0 else 1) := by
  induction ops generalizing s with
  | nil => simp [enqueueBurst]
  | cons r rest ih =>
    rw [enqueueBurst]
    unfold requestToCommit
    by_cases h : s.isCommitRequested
    · simp only [h, if_true, ih]
      simp [h]
    · simp only [Bool.not_eq_true] at h
      simp only [h, Bool.false_eq_true, if_false, ih]
      simp [h]

theorem burstAwaiters_of_requested (ops : List Req) (s : IdbState)
    (h : s.isCommitRequested = true) :
    burstAwaiters s ops = ops.map (fun _ => false) := by
  induction ops generalizing s with
  | nil => rfl
  | cons r rest ih =>
    rw [burstAwaiters]
    unfold requestToCommit
    simp only [h, if_true, List.map_cons]
    exact congrArg _ (ih _ rfl)

theorem burstAwaiters_idle (r : Req) (rest : List Req) (s : IdbState)
    (h : s.isCommitRequested = false) :
    burstAwaiters s (r :: rest) = true :: rest.map (fun _ => false) := by
  rw [burstAwaiters]
  unfold requestToCommit
  simp only [h, Bool.false_eq_true, if_false]
  exact congrArg _ (burstAwaiters_of_requested rest _ rfl)

/-- The shared shape of a pure-data commit pass: a burst of `ops`
registered on a fresh handle is flushed by one deferred continuation
that opens one session and one transaction over the distinct referenced
store names, in the implied mode, invoking the queued closures in order. -/
theorem runBurst_data (ops : List Req) (db : EngineDb)
    (hne : ops ≠ [])
    (hst : ∀ r ∈ ops, db.schema.containsStore r.osName = true) :
    runBurst idbInit db ops =
      .ok (idbInit, db,
        Event.openSession none
          :: Event.txOpen (impliedStoreNames ops) (impliedMode ops)
          :: ops.map (fun r => Event.invoke r.opId)) := by
  have hemp : ops.isEmpty = false := by
    cases ops with
    | nil => exact absurd rfl hne
    | cons a l => rfl
  unfold runBurst
  rw [enqueueBurst_spec]
  simp only [idbInit, hemp, Bool.false_or, Bool.not_false, Bool.or_false, if_false]
  unfold commit
  simp only [List.nil_append, List.isEmpty_nil, hemp, if_true, Bool.true_and]
  rw [processReqs_ok hne hst]
  simp

theorem countTxOpen_append (a b : List Event) :
    countTxOpen (a ++ b) = countTxOpen a + countTxOpen b := by
  simp [countTxOpen, List.countP_append]

/-- The trace of one single-operation burst. -/
def passEvents (r : Req) : List Event :=
  [Event.openSession none, Event.txOpen [r.osName] r.mode, Event.invoke r.opId]

theorem impliedMode_single (r : Req) : impliedMode [r] = r.mode := by
  cases hr : r.mode <;> simp [impliedMode, hr]

theorem runBurst_single (r : Req) (db : EngineDb)
    (hst : db.schema.containsStore r.osName = true) :
    runBurst idbInit db [r] = .ok (idbInit, db, passEvents r) := by
  rw [runBurst_data [r] db (by simp) (by simpa using hst)]
  have hn : impliedStoreNames [r] = [r.osName] := by
    simp [impliedStoreNames, distinctNames, distinctAux]
  rw [hn, impliedMode_single r]
  simp [passEvents]

end IdbModel

namespace IdbModel

/-! ## Claims -/

/-- C1. For every sequence of N operations (N ≥ 1) enqueued on the
same handle within one synchronous burst, exactly one deferred commit
continuation is scheduled, and the commit pass opens exactly one data
transaction — against exactly the set of distinct object-store names
referenced by the operations (no duplicates, first-seen order) — and
invokes the N queued closures strictly in submission order, all inside
that single transaction (the trace holds one `txOpen` and the invokes
follow it directly). -/
theorem C1_burst_single_transaction (ops : List Req) (db : EngineDb)
    (hne : ops ≠ [])
    (hst : ∀ r ∈ ops, db.schema.containsStore r.osName = true) :
    (enqueueBurst idbInit ops).2 = 1 ∧
    runBurst idbInit db ops =
      .ok (idbInit, db,
        Event.openSession none
          :: Event.txOpen (impliedStoreNames ops) (impliedMode ops)
          :: ops.map (fun r => Event.invoke r.opId)) ∧
    countTxOpen (Event.openSession none
          :: Event.txOpen (impliedStoreNames ops) (impliedMode ops)
          :: ops.map (fun r => Event.invoke r.opId)) = 1 ∧
    (impliedStoreNames ops).Nodup ∧
    (∀ n, n ∈ impliedStoreNames ops ↔ ∃ r ∈ ops, r.osName = n) ∧
    invokedIds (Event.openSession none
          :: Event.txOpen (impliedStoreNames ops) (impliedMode ops)
          :: ops.map (fun r => Event.invoke r.opId)) = ops.map (fun r => r.opId) := by
  have hemp : ops.isEmpty = false := by
    cases ops with
    | nil => exact absurd rfl hne
    | cons a l => rfl
  refine ⟨?_, runBurst_data ops db hne hst, ?_, nodup_distinctNames _, ?_, ?_⟩
  · rw [enqueueBurst_spec]
    simp [idbInit, hemp]
  · have h0 := countTxOpen_invoke_map ops
    simp only [countTxOpen, List.countP_cons] at h0 ⊢
    simp [h0]
  · intro n
    rw [mem_impliedStoreNames, List.mem_map]
  · have h0 := invokedIds_invoke_map ops
    simp only [invokedIds, List.filterMap_cons] at h0 ⊢
    simp [h0]

def w1ops : List Req := [⟨"a", .readonly, 0⟩, ⟨"b", .readwrite, 1⟩, ⟨"a", .readonly, 2⟩]

def w1db : EngineDb := ⟨1, ⟨[("a", []), ("b", [])]⟩⟩

/-- Witness for C1 at a concrete three-operation burst over two stores. -/
theorem C1_burst_single_transaction_witness :
    runBurst idbInit w1db w1ops =
      .ok (idbInit, w1db,
        [Event.openSession none, Event.txOpen ["a", "b"] .readwrite,
         Event.invoke 0, Event.invoke 1, Event.invoke 2]) := by
  rw [(C1_burst_single_transaction w1ops w1db (by decide) (by decide)).2.1]
  decide

def c3db : EngineDb := ⟨1, ⟨[("s1", [])]⟩⟩

/-- C3, counterexample. A burst consisting of a single `openCursor`
call — a read operation in the read list of the claim, and not one of
its writes (`add`, `put`, `delete`, `clear`) — opens the shared
transaction in read-write mode, because `openCursor` registers with the
read-write mode (idb.ts line 383).  The claim predicts read-only. -/
theorem C3_counterexample :
    runBurst idbInit c3db (reqsOf [⟨"s1", .openCursor, 0⟩]) =
      .ok (idbInit, c3db,
        [Event.openSession none, Event.txOpen ["s1"] .readwrite, Event.invoke 0]) ∧
    specWriteOp .openCursor = false := by decide

/-- C3, amended. The shared transaction of a burst is read-only iff
every operation of the burst *registers* read-only; the read-only
registrants are `get`, `getAll`, `getAllKeys`, `getKey`, `count` (and
`keyPath`), while `add`, `put`, `delete`, `clear` — and also
`openCursor` and `openKeyCursor` — register read-write, so any one of
them forces the whole shared transaction to read-write. -/
theorem C3_amended (calls : List OpCall) (db : EngineDb)
    (hne : calls ≠ [])
    (hst : ∀ c ∈ calls, db.schema.containsStore c.osName = true) :
    runBurst idbInit db (reqsOf calls) =
      .ok (idbInit, db,
        Event.openSession none
          :: Event.txOpen (impliedStoreNames (reqsOf calls)) (impliedMode (reqsOf calls))
          :: (reqsOf calls).map (fun r => Event.invoke r.opId)) ∧
    (impliedMode (reqsOf calls) = .readonly ↔ ∀ c ∈ calls, registeredMode c.op = .readonly) ∧
    registeredMode .get = .readonly ∧ registeredMode .getAll = .readonly ∧
    registeredMode .getAllKeys = .readonly ∧ registeredMode .getKey = .readonly ∧
    registeredMode .count = .readonly ∧
    registeredMode .add = .readwrite ∧ registeredMode .put = .readwrite ∧
    registeredMode .del = .readwrite ∧ registeredMode .clear = .readwrite ∧
    registeredMode .openCursor = .readwrite ∧ registeredMode .openKeyCursor = .readwrite := by
  have hne' : reqsOf calls ≠ [] := by
    cases calls with
    | nil => exact absurd rfl hne
    | cons c l => simp [reqsOf]
  have hst' : ∀ r ∈ reqsOf calls, db.schema.containsStore r.osName = true := by
    intro r hr
    obtain ⟨c, hc, rfl⟩ := List.mem_map.mp hr
    exact hst c hc
  refine ⟨runBurst_data _ db hne' hst', ?_, rfl, rfl, rfl, rfl, rfl, rfl, rfl, rfl, rfl, rfl, rfl⟩
  rw [impliedMode_eq_readonly_iff]
  constructor
  · intro h c hc
    exact h _ (List.mem_map_of_mem _ hc)
  · intro h r hr
    obtain ⟨c, hc, rfl⟩ := List.mem_map.mp hr
    exact h c hc

def w3calls : List OpCall := [⟨"s1", .get, 0⟩, ⟨"s1", .count, 1⟩]

/-- Witness for C3 (amended) at a concrete read-only burst. -/
theorem C3_amended_witness :
    runBurst idbInit c3db (reqsOf w3calls) =
      .ok (idbInit, c3db,
        [Event.openSession none, Event.txOpen ["s1"] .readonly,
         Event.invoke 0, Event.invoke 1]) := by
  rw [(C3_amended w3calls c3db (by decide) (by decide)).1]
  decide

/-- C8. For every sequence of N operations each awaited to
completion before the next is issued (each lands in its own burst),
exactly N data transactions are opened, one commit pass per burst, and
the traces of the passes follow each other in order (the events of pass N all
precede those of pass N+1). -/
theorem C8_awaited_ops_one_tx_each (ops : List Req) (db : EngineDb)
    (hst : ∀ r ∈ ops, db.schema.containsStore r.osName = true) :
    runBursts idbInit db (ops.map (fun r => [r])) =
      .ok (idbInit, db, (ops.map passEvents).flatten) ∧
    countTxOpen (ops.map passEvents).flatten = ops.length := by
  induction ops with
  | nil => exact ⟨rfl, rfl⟩
  | cons r rest ih =>
    obtain ⟨ih1, ih2⟩ := ih (fun x hx => hst x (List.mem_cons_of_mem _ hx))
    have h1 := runBurst_single r db (hst r (List.mem_cons_self _ _))
    constructor
    · simp only [List.map_cons]
      simp [runBursts, h1, ih1]
    · simp only [List.map_cons, List.flatten_cons, countTxOpen_append, ih2]
      simp [countTxOpen, passEvents, List.countP_cons]
      omega

def w8ops : List Req := [⟨"a", .readonly, 0⟩, ⟨"b", .readwrite, 1⟩]

/-- Witness for C8: two individually-awaited operations open two
transactions, one per pass, in order. -/
theorem C8_awaited_ops_one_tx_each_witness :
    runBursts idbInit w1db (w8ops.map (fun r => [r])) =
      .ok (idbInit, w1db,
        [Event.openSession none, Event.txOpen ["a"] .readonly, Event.invoke 0,
         Event.openSession none, Event.txOpen ["b"] .readwrite, Event.invoke 1]) := by
  rw [(C8_awaited_ops_one_tx_each w8ops w1db (by decide)).1]
  decide

theorem cursorDrain_val_append {α : Type} (xs : List α) (rest : List (Poll α)) :
    cursorDrain (xs.map Poll.val ++ rest) = (cursorDrain rest).map (fun l => xs ++ l) := by
  induction xs with
  | nil =>
    cases h : cursorDrain rest <;> simp [h, Except.map]
  | cons a t ih =>
    have hstep : cursorDrain (Poll.val a :: (t.map Poll.val ++ rest)) =
        (cursorDrain (t.map Poll.val ++ rest)).map (fun l => a :: l) := rfl
    simp only [List.map_cons, List.cons_append, hstep, ih]
    cases h : cursorDrain rest <;> simp [h, Except.map]

theorem cursorPull_val_append {α : Type} (xs : List α) (rest : List (Poll α))
    (k : Nat) (hk : k ≤ xs.length) :
    cursorPull k (xs.map Poll.val ++ rest) = .ok (xs.take k, k) := by
  induction xs generalizing k with
  | nil =>
    have : k = 0 := Nat.le_zero.mp hk
    subst this
    rfl
  | cons a t ih =>
    cases k with
    | zero => rfl
    | succ k =>
      have hstep : cursorPull (k + 1) (Poll.val a :: (t.map Poll.val ++ rest)) =
          (cursorPull k (t.map Poll.val ++ rest)).map (fun p => (a :: p.1, p.2 + 1)) := rfl
      simp only [List.map_cons, List.cons_append, hstep,
        ih k (Nat.le_of_succ_le_succ hk), Except.map, List.take_succ_cons]

/-- C9. The cursor sequence produced over an engine scan whose
successive cursor-advance answers are `xs` followed by the terminal null
marker (and then anything, `junk`, never to be polled) is lazy, finite
and non-restartable: draining it yields exactly `xs`, ending precisely
at the terminal marker; a consumer that stops after `k ≤ |xs|` elements
has performed exactly `k` cursor-advance polls and terminates normally
(`ok`, not an error), whatever `junk` holds — the underlying cursor is
abandoned, not failed; and resuming from position `k` continues forward
with the remaining elements (a single forward pass, never a restart). -/
theorem C9_cursor_lazy_finite {α : Type} (xs : List α) (junk : List (Poll α)) :
    cursorDrain (xs.map Poll.val ++ Poll.done :: junk) = .ok xs ∧
    (∀ k, k ≤ xs.length →
      cursorPull k (xs.map Poll.val ++ Poll.done :: junk) = .ok (xs.take k, k)) ∧
    (∀ k, k ≤ xs.length →
      cursorDrain ((xs.map Poll.val ++ Poll.done :: junk).drop k) = .ok (xs.drop k)) := by
  refine ⟨?_, fun k hk => cursorPull_val_append xs _ k hk, fun k hk => ?_⟩
  · rw [cursorDrain_val_append]
    simp [cursorDrain, Except.map]
  · rw [List.drop_append_of_le_length (by simpa using hk), ← List.map_drop,
      cursorDrain_val_append]
    simp [cursorDrain, Except.map]

/-- Witness for C9: two stored entries, a consumer that stops after the
first element (one poll, normal termination) even though a later poll
would report an error. -/
theorem C9_cursor_lazy_finite_witness :
    cursorPull 1 (([10, 20] : List Nat).map Poll.val
        ++ Poll.done :: [Poll.err .requestFailed]) = .ok ([10], 1) := by
  rw [(C9_cursor_lazy_finite [10, 20] [Poll.err .requestFailed]).2.1 1 (by decide)]
  decide

theorem commitUpgrade_eq {s : IdbState} {db : EngineDb} {iEv : List Event}
    {sc2 : Schema} {upgEv dataEv : List Event}
    (hupg : processUpgReqs db.schema s.upgReqs s.upgIReqs = .ok (sc2, upgEv))
    (hdata : processReqs sc2 s.reqs = .ok dataEv) :
    commitUpgrade s db iEv =
      .ok ({ s with upgReqs := [], upgIReqs := [], reqs := [] },
        ⟨db.version + 1, sc2⟩,
        Event.openSession none :: iEv
          ++ Event.openSession (some (db.version + 1))
          :: Event.upgradeRun (db.version + 1) :: (upgEv ++ dataEv)) := by
  unfold commitUpgrade
  rw [hupg]
  simp only [hdata]

theorem processUpgReqs_events {sc : Schema} {urs : List UpgReq}
    {irs : List (StoreName × List UpgIReq)} {sc2 : Schema} {upgEv : List Event}
    (h : processUpgReqs sc urs irs = .ok (sc2, upgEv)) :
    upgEv = urs.map (fun r => Event.applyStore r.name r.method)
      ++ (irs.map (fun p => p.2.map (fun r => Event.applyIndex p.1 r.name r.method))).flatten := by
  unfold processUpgReqs at h
  split at h
  · cases h
  · simp only [Except.ok.injEq, Prod.mk.injEq] at h
    exact h.2.symm

theorem processReqs_invokedIds {sc : Schema} {reqs : List Req} {ev : List Event}
    (h : processReqs sc reqs = .ok ev) :
    invokedIds ev = reqs.map (fun r => r.opId) := by
  unfold processReqs at h
  split at h
  · rename_i hemp
    simp only [Except.ok.injEq] at h
    subst h
    rw [List.isEmpty_iff.mp hemp]
    rfl
  · split at h
    · cases h
    · simp only [Except.ok.injEq] at h
      subst h
      have h0 := invokedIds_invoke_map reqs
      simp only [invokedIds, List.filterMap_cons] at h0 ⊢
      exact h0

theorem invokedIds_applies (urs : List UpgReq) (irs : List (StoreName × List UpgIReq)) :
    invokedIds (urs.map (fun r => Event.applyStore r.name r.method)
      ++ (irs.map (fun p => p.2.map (fun r => Event.applyIndex p.1 r.name r.method))).flatten)
      = [] := by
  rw [invokedIds_append]
  have h1 : invokedIds (urs.map (fun r => Event.applyStore r.name r.method)) = [] := by
    simp only [invokedIds, List.filterMap_eq_nil_iff]
    intro e he
    obtain ⟨r, _, rfl⟩ := List.mem_map.mp he
    rfl
  have h2 : invokedIds
      ((irs.map (fun p => p.2.map (fun r => Event.applyIndex p.1 r.name r.method))).flatten)
      = [] := by
    simp only [invokedIds, List.filterMap_eq_nil_iff]
    intro e he
    obtain ⟨l, hl, hel⟩ := List.mem_flatten.mp he
    obtain ⟨p, _, rfl⟩ := List.mem_map.mp hl
    obtain ⟨r, _, rfl⟩ := List.mem_map.mp hel
    rfl
  rw [h1, h2]
  rfl

/-- C2, counterexample. A schema-change ledger that holds only a
*necessary* index-scoped intent — a lone `deleteIndex` of an existing
index, on a handle with no store-scoped intent — is ignored by the
commit pass: `commit` gates the necessity inspection and the upgrade on
`upgReqs` being non-empty (idb.ts lines 237 and 248-249), so no session
is opened at all, the stored version stays 3 (no `targetVersion =
currentVersion + 1` is computed), no apply function runs, and the ledger
is not cleared.  The claim asserts all of these happen for every
non-empty ledger. -/
theorem C2_counterexample :
    let s : IdbState := ⟨[], [("s1", [⟨"i1", .delete⟩])], [], false⟩
    let db : EngineDb := ⟨3, ⟨[("s1", ["i1"])]⟩⟩
    s.upgIReqs ≠ [] ∧
    isNeedToIUpg db.schema s.upgIReqs = .ok true ∧
    commit s db = .ok (s, db, []) := by decide

/-- C2, amended. Whenever the ledger holds at least one
*store-scoped* intent and some queued intent is necessary (a store
intent per `isNeedToUpg`, or an index intent per `isNeedToIUpg`), the
commit pass opens an inspection session, computes `targetVersion =
currentVersion + 1`, reopens a session explicitly requesting it, runs
the apply function of every ledger intent (store-scoped then index-scoped, in
submission order) inside the upgrade callback, and clears both ledgers.
A ledger whose store-scoped part is empty is not inspected at all (see
the counterexample). -/
theorem C2_amended (s : IdbState) (db : EngineDb) (sc2 : Schema)
    (upgEv dataEv : List Event)
    (hne : s.upgReqs ≠ [])
    (hneed : isNeedToUpg db.schema s.upgReqs = true ∨
      isNeedToIUpg db.schema s.upgIReqs = .ok true)
    (hupg : processUpgReqs db.schema s.upgReqs s.upgIReqs = .ok (sc2, upgEv))
    (hdata : processReqs sc2 s.reqs = .ok dataEv) :
    commit s db =
      .ok ({ s with upgReqs := [], upgIReqs := [], reqs := [] },
        ⟨db.version + 1, sc2⟩,
        Event.openSession none
          :: (if isNeedToUpg db.schema s.upgReqs then [] else inspectEvents s)
          ++ Event.openSession (some (db.version + 1))
          :: Event.upgradeRun (db.version + 1) :: (upgEv ++ dataEv)) ∧
    upgEv = s.upgReqs.map (fun r => Event.applyStore r.name r.method)
      ++ (s.upgIReqs.map (fun p => p.2.map (fun r => Event.applyIndex p.1 r.name r.method))).flatten := by
  have hemp : s.upgReqs.isEmpty = false := by
    cases h : s.upgReqs with
    | nil => exact absurd h hne
    | cons a l => rfl
  refine ⟨?_, processUpgReqs_events hupg⟩
  unfold commit
  rw [hemp]
  simp only [Bool.false_eq_true, if_false]
  by_cases hn1 : isNeedToUpg db.schema s.upgReqs
  · rw [if_pos hn1, if_pos hn1]
    exact commitUpgrade_eq hupg hdata
  · rw [if_neg hn1, if_neg hn1]
    rcases hneed with h | h
    · exact absurd h hn1
    · rw [h]
      exact commitUpgrade_eq hupg hdata

def w2state : IdbState := ⟨[⟨"s3", .create⟩], [("s3", [⟨"ix", .create⟩])], [⟨"s3", .readwrite, 4⟩], false⟩

def w2db : EngineDb := ⟨3, ⟨[("s1", ["i1"])]⟩⟩

/-- Witness for C2 (amended): creating a new store with an index and a
pending write bumps 3 → 4, applies both intents in the upgrade callback
of the session opened with version 4, and serves the write afterwards. -/
theorem C2_amended_witness :
    commit w2state w2db =
      .ok (⟨[], [], [], false⟩, ⟨4, ⟨[("s1", ["i1"]), ("s3", ["ix"])]⟩⟩,
        [Event.openSession none, Event.openSession (some 4), Event.upgradeRun 4,
         Event.applyStore "s3" .create, Event.applyIndex "s3" "ix" .create,
         Event.txOpen ["s3"] .readwrite, Event.invoke 4]) := by
  rw [(C2_amended w2state w2db ⟨[("s1", ["i1"]), ("s3", ["ix"])]⟩
    [Event.applyStore "s3" .create, Event.applyIndex "s3" "ix" .create]
    [Event.txOpen ["s3"] .readwrite, Event.invoke 4]
    (by decide) (Or.inl (by decide)) (by decide) (by decide)).1]
  decide

/-- C6, counterexample. A handle whose only schema intent is a
`deleteIndex` of a non-existent index (no store-scoped intent), with a
pending read: the stored version is not bumped — but contrary to the
claim, the intent is *not* dropped ("all intents are dropped unapplied"
fails: `commit` only drains the ledgers when `upgReqs` is non-empty),
and the pending read is served by a plain session, not by one opened for
a necessity inspection (none is opened: no `inspectTx` occurs). -/
theorem C6_counterexample :
    let s : IdbState := ⟨[], [("s1", [⟨"i9", .delete⟩])], [⟨"s1", .readonly, 7⟩], false⟩
    let db : EngineDb := ⟨2, ⟨[("s1", [])]⟩⟩
    isNeedToIUpg db.schema s.upgIReqs = .ok false ∧
    commit s db = .ok ({ s with reqs := [] }, db,
      [Event.openSession none, Event.txOpen ["s1"] .readonly, Event.invoke 7]) ∧
    ({ s with reqs := [] } : IdbState).upgIReqs = [("s1", [⟨"i9", .delete⟩])] := by decide

/-- C6, amended. Declaring a store or an index that already exists,
and deleting a store or an index that does not exist, is never
*necessary* (conjuncts 2-5), so the stored version is never bumped.
When the ledger holds at least one store-scoped intent and no queued
intent is necessary, all intents of both ledgers are dropped unapplied
and any pending data operations are served within the single session
opened for the necessity inspection (conjunct 1: one `openSession`, no
upgrade, no apply events, both ledgers cleared, `db` unchanged).  A
ledger holding only index-scoped intents is not inspected and its
intents are retained (see the counterexample). -/
theorem C6_amended :
    (∀ (s : IdbState) (db : EngineDb) (dataEv : List Event),
      s.upgReqs ≠ [] →
      isNeedToUpg db.schema s.upgReqs = false →
      isNeedToIUpg db.schema s.upgIReqs = .ok false →
      processReqs db.schema s.reqs = .ok dataEv →
      commit s db = .ok ({ s with upgReqs := [], upgIReqs := [], reqs := [] }, db,
        Event.openSession none :: (inspectEvents s ++ dataEv))) ∧
    (∀ (sc : Schema) (n : StoreName),
      sc.containsStore n = true → isNeedToUpg sc [⟨n, .create⟩] = false) ∧
    (∀ (sc : Schema) (n : StoreName),
      sc.containsStore n = false → isNeedToUpg sc [⟨n, .delete⟩] = false) ∧
    (∀ (sc : Schema) (os : StoreName) (idx : IndexName),
      sc.containsStore os = true → sc.containsIndex os idx = true →
      isNeedToIUpg sc [(os, [⟨idx, .create⟩])] = .ok false) ∧
    (∀ (sc : Schema) (os : StoreName) (idx : IndexName),
      sc.containsStore os = true → sc.containsIndex os idx = false →
      isNeedToIUpg sc [(os, [⟨idx, .delete⟩])] = .ok false) := by
  refine ⟨?_, ?_, ?_, ?_, ?_⟩
  · intro s db dataEv hne hn1 hni hdata
    have hemp : s.upgReqs.isEmpty = false := by
      cases h : s.upgReqs with
      | nil => exact absurd h hne
      | cons a l => rfl
    unfold commit
    rw [hemp]
    simp only [Bool.false_eq_true, if_false]
    rw [if_neg (by simp [hn1]), hni, hdata]
  · intro sc n h
    simp [isNeedToUpg, h]
  · intro sc n h
    simp [isNeedToUpg, h]
  · intro sc os idx h1 h2
    simp [isNeedToIUpg, List.find?, h1, h2]
  · intro sc os idx h1 h2
    simp [isNeedToIUpg, List.find?, h1, h2]

def w6state : IdbState := ⟨[⟨"s1", .create⟩, ⟨"sX", .delete⟩], [("s1", [⟨"i1", .create⟩])], [⟨"s1", .readonly, 3⟩], false⟩

def w6db : EngineDb := ⟨2, ⟨[("s1", ["i1"])]⟩⟩

/-- Witness for C6 (amended): re-declaring an existing store and its
existing index and deleting a missing store bump nothing: one session,
no upgrade, ledgers dropped, the pending read served inside it. -/
theorem C6_amended_witness :
    commit w6state w6db =
      .ok (⟨[], [], [], false⟩, w6db,
        [Event.openSession none, Event.inspectTx ["s1"],
         Event.txOpen ["s1"] .readonly, Event.invoke 3]) ∧
    isNeedToUpg w6db.schema [⟨"s1", .create⟩] = false ∧
    isNeedToIUpg w6db.schema [("s1", [⟨"i1", .create⟩])] = .ok false := by
  refine ⟨?_, C6_amended.2.1 w6db.schema "s1" (by decide),
    C6_amended.2.2.2.1 w6db.schema "s1" "i1" (by decide) (by decide)⟩
  rw [C6_amended.1 w6state w6db [Event.txOpen ["s1"] .readonly, Event.invoke 3]
    (by decide) (by decide) (by decide) (by decide)]
  decide

/-- C10, counterexample. A successful commit pass on a handle whose
ledger holds only an index-scoped intent leaves that entry in place: the
pass completes (trivially — `commit` ignores the index dictionary when
`upgReqs` is empty) yet the ledger still contains the entry that was
present when the pass began, contradicting the claim that after a
successful pass no such entry remains. -/
theorem C10_counterexample :
    let s : IdbState := ⟨[], [("t1", [⟨"j1", .create⟩])], [], false⟩
    let db : EngineDb := ⟨1, ⟨[("t1", [])]⟩⟩
    commit s db = .ok (s, db, []) ∧ s.upgIReqs ≠ [] := by decide

/-- C10, amended. Every queued closure is invoked at most once: a
successful commit pass invokes exactly the drained entries, each exactly
once and in order (`invokedIds ev = s.reqs.map opId`), and leaves the
operation queue and the store-scoped ledger empty, so a later pass can
only invoke entries enqueued after this pass.  The index-scoped ledger,
however, is drained only when a store-scoped intent was present in the
same pass; otherwise it is retained untouched. -/
theorem C10_amended (s : IdbState) (db : EngineDb) (s' : IdbState)
    (db' : EngineDb) (ev : List Event)
    (h : commit s db = .ok (s', db', ev)) :
    s'.reqs = [] ∧ s'.upgReqs = [] ∧
    (s.upgReqs ≠ [] → s'.upgIReqs = []) ∧
    (s.upgReqs = [] → s'.upgIReqs = s.upgIReqs) ∧
    invokedIds ev = s.reqs.map (fun r => r.opId) := by
  unfold commit at h
  by_cases hemp : s.upgReqs.isEmpty
  · rw [if_pos hemp] at h
    have hur : s.upgReqs = [] := List.isEmpty_iff.mp hemp
    by_cases hre : s.reqs.isEmpty
    · rw [if_pos hre] at h
      simp only [Except.ok.injEq, Prod.mk.injEq] at h
      obtain ⟨rfl, -, rfl⟩ := h
      have hrr : s.reqs = [] := List.isEmpty_iff.mp hre
      exact ⟨hrr, hur, fun hc => absurd hur hc, fun _ => rfl, by simp [hrr, invokedIds]⟩
    · rw [if_neg hre] at h
      cases hd : processReqs db.schema s.reqs with
      | error e => rw [hd] at h; cases h
      | ok dataEv =>
        rw [hd] at h
        simp only [Except.ok.injEq, Prod.mk.injEq] at h
        obtain ⟨rfl, -, rfl⟩ := h
        refine ⟨rfl, hur, fun hc => absurd hur hc, fun _ => rfl, ?_⟩
        have := processReqs_invokedIds hd
        simp only [invokedIds, List.filterMap_cons] at this ⊢
        exact this
  · rw [if_neg hemp] at h
    have hne : s.upgReqs ≠ [] := by
      intro hc
      exact hemp (by simp [hc])
    have upgCase : ∀ iEv : List Event, invokedIds iEv = [] →
        commitUpgrade s db iEv = .ok (s', db', ev) →
        s'.reqs = [] ∧ s'.upgReqs = [] ∧
        (s.upgReqs ≠ [] → s'.upgIReqs = []) ∧
        (s.upgReqs = [] → s'.upgIReqs = s.upgIReqs) ∧
        invokedIds ev = s.reqs.map (fun r => r.opId) := by
      intro iEv hiEv hcu
      unfold commitUpgrade at hcu
      cases hu : processUpgReqs db.schema s.upgReqs s.upgIReqs with
      | error e => rw [hu] at hcu; cases hcu
      | ok p =>
        obtain ⟨sc2, upgEv⟩ := p
        rw [hu] at hcu
        simp only at hcu
        cases hd : processReqs sc2 s.reqs with
        | error e => rw [hd] at hcu; cases hcu
        | ok dataEv =>
          rw [hd] at hcu
          simp only [Except.ok.injEq, Prod.mk.injEq] at hcu
          obtain ⟨rfl, -, rfl⟩ := hcu
          refine ⟨rfl, rfl, fun _ => rfl, fun hc => absurd hc hne, ?_⟩
          have h1 := processReqs_invokedIds hd
          have h2 : invokedIds upgEv = [] := by
            rw [processUpgReqs_events hu]
            exact invokedIds_applies _ _
          simp only [invokedIds, List.filterMap_cons, List.filterMap_append] at hiEv h1 h2 ⊢
          simp [hiEv, h1, h2]
    by_cases hn1 : isNeedToUpg db.schema s.upgReqs
    · rw [if_pos hn1] at h
      exact upgCase [] rfl h
    · rw [if_neg hn1] at h
      cases hni : isNeedToIUpg db.schema s.upgIReqs with
      | error e => rw [hni] at h; cases h
      | ok b =>
        rw [hni] at h
        cases b with
        | true =>
          refine upgCase (inspectEvents s) ?_ h
          unfold inspectEvents
          by_cases hie : s.upgIReqs.isEmpty
          · rw [if_pos hie]; rfl
          · rw [if_neg hie]; rfl
        | false =>
          cases hd : processReqs db.schema s.reqs with
          | error e => rw [hd] at h; cases h
          | ok dataEv =>
            rw [hd] at h
            simp only [Except.ok.injEq, Prod.mk.injEq] at h
            obtain ⟨rfl, -, rfl⟩ := h
            refine ⟨rfl, rfl, fun _ => rfl, fun hc => absurd hc hne, ?_⟩
            have h1 := processReqs_invokedIds hd
            have h2 : invokedIds (inspectEvents s) = [] := by
              unfold inspectEvents
              by_cases hie : s.upgIReqs.isEmpty
              · rw [if_pos hie]; rfl
              · rw [if_neg hie]; rfl
            simp only [invokedIds, List.filterMap_cons, List.filterMap_append] at h1 h2 ⊢
            simp [h1, h2]

/-- Witness for C10 (amended) at the concrete not-necessary pass of the
C6 witness state: queue drained, both ledgers drained, the single queued
closure invoked exactly once. -/
theorem C10_amended_witness :
    (⟨[], [], [], false⟩ : IdbState).reqs = [] ∧
    (⟨[], [], [], false⟩ : IdbState).upgReqs = [] ∧
    (w6state.upgReqs ≠ [] → (⟨[], [], [], false⟩ : IdbState).upgIReqs = []) ∧
    (w6state.upgReqs = [] → (⟨[], [], [], false⟩ : IdbState).upgIReqs = w6state.upgIReqs) ∧
    invokedIds [Event.openSession none, Event.inspectTx ["s1"],
      Event.txOpen ["s1"] .readonly, Event.invoke 3] = w6state.reqs.map (fun r => r.opId) :=
  C10_amended w6state w6db ⟨[], [], [], false⟩ w6db
    [Event.openSession none, Event.inspectTx ["s1"],
     Event.txOpen ["s1"] .readonly, Event.invoke 3]
    (by decide)

/-- C4, counterexample. A two-operation burst whose session open
fails: only the future of the first operation is rejected — the `requestToCommit` call of the second
operation returned at once (`isCommitRequested` was
already set, idb.ts line 228), so its `.catch` handler never fires, its
closure is never invoked, and its future remains pending, not rejected.
The claim asserts every still-unsettled future is rejected, "not merely
the future of the first operation enqueued in the burst". -/
theorem C4_counterexample :
    openFailureOutcome idbInit
      [⟨"s1", .readwrite, 0⟩, ⟨"s1", .readwrite, 1⟩] (.engine 5) =
      [.rejected (.engine 5), .pending] ∧
    FutureState.pending ≠ FutureState.rejected (.engine 5) := by decide

/-- C4, amended. When the shared transaction errors after the
closures ran, the future of every drained operation rejects, each with
the error reported by its own request, falling back to the transaction error
and then to a generic request-failed error (conjuncts 1-4).  When
opening the engine session fails, however, only the future of the
operation whose `requestToCommit` call scheduled the commit — the first
of the burst — is rejected (through its `.catch` handler) with the open
error; every other future of the burst stays pending, and all entries
enqueued by the burst are still in the queue when the failed commit
returns (conjuncts 5-6). -/
theorem C4_amended :
    (∀ (reqErrors : List (Option ErrMsg)) (txError : Option ErrMsg),
      ∀ f ∈ txErrorOutcome reqErrors txError, ∃ e, f = .rejected e) ∧
    (∀ (e : ErrMsg) (te : Option ErrMsg), rejectionError (some e) te = e) ∧
    (∀ e : ErrMsg, rejectionError none (some e) = e) ∧
    rejectionError none none = .requestFailed ∧
    (∀ (s : IdbState) (r : Req) (rest : List Req) (e : ErrMsg),
      s.isCommitRequested = false →
      openFailureOutcome s (r :: rest) e =
        .rejected e :: rest.map (fun _ => .pending)) ∧
    (∀ (s : IdbState) (ops : List Req), (enqueueBurst s ops).1.reqs = s.reqs ++ ops) := by
  refine ⟨?_, fun e te => rfl, fun e => rfl, rfl, ?_, ?_⟩
  · intro reqErrors txError f hf
    obtain ⟨re, _, rfl⟩ := List.mem_map.mp hf
    exact ⟨rejectionError re txError, rfl⟩
  · intro s r rest e h
    unfold openFailureOutcome
    rw [burstAwaiters_idle r rest s h]
    simp
  · intro s ops
    rw [enqueueBurst_spec]

/-- Witness for C4 (amended): a three-operation burst from an idle
handle with a failing open rejects only the first future. -/
theorem C4_amended_witness :
    openFailureOutcome idbInit
      [⟨"a", .readonly, 0⟩, ⟨"b", .readwrite, 1⟩, ⟨"c", .readonly, 2⟩] (.engine 7) =
      [.rejected (.engine 7), .pending, .pending] := by
  rw [C4_amended.2.2.2.2.1 idbInit ⟨"a", .readonly, 0⟩
    [⟨"b", .readwrite, 1⟩, ⟨"c", .readonly, 2⟩] (.engine 7) rfl]
  decide

/-- C5, counterexample. A burst of two operations whose first user
callback throws synchronously: the queued closure built by `register`
catches the throw (idb.ts lines 321-327), so nothing escapes into the
transaction callback — the shared transaction is *not* aborted
(`aborted = false`), both closures are invoked, the second operation
resolves and its effects are retained, and only the own future of the
throwing operation is rejected.  The claim asserts the shared transaction is
aborted and the effects of every other closure are discarded. -/
theorem C5_counterexample :
    runBurstClosures [.throws (.engine 3), .ok] =
      (⟨2, false, none⟩, [.rejected (.engine 3), .resolvedOk]) := by decide

/-- C5, amended. A user operation callback that throws synchronously
has its throw caught by the queue-entry wrapper built by `register`:
only its own future is rejected with the thrown error, no exception
escapes into the callback of the shared transaction, and the transaction is
never aborted on this account — every queued closure runs and the
effects of the others are retained (conjuncts 1-2).  The
`Idb.transaction` abort-on-throw fires exactly for an exception escaping the transaction
callback itself (conjunct 3), which the wrapped data closures never
produce. -/
theorem C5_amended :
    (∀ cbs : List CbOutcome,
      runBurstClosures cbs =
        (⟨cbs.length, false, none⟩,
         cbs.map (fun c =>
           match c with
           | .ok => FutureState.resolvedOk
           | .throws e => FutureState.rejected e))) ∧
    (∀ c : CbOutcome, (registerWrap c).1 = .ret) ∧
    (∀ raws : List RawOutcome,
      (transactionRun raws).aborted = true ↔ ∃ e, (runClosureList raws).2 = some e) := by
  have hrets0 : ∀ l : List RawOutcome, (∀ x ∈ l, x = RawOutcome.ret) →
      runClosureList l = (l.length, none) := by
    intro l hl
    induction l with
    | nil => rfl
    | cons x rest ih =>
      have hx := hl x (List.mem_cons_self _ _)
      subst hx
      rw [runClosureList, ih (fun y hy => hl y (List.mem_cons_of_mem _ hy))]
      simp
  have hrets : ∀ cbs : List CbOutcome,
      runClosureList (cbs.map (fun c => (registerWrap c).1)) = (cbs.length, none) := by
    intro cbs
    rw [hrets0 _ (fun x hx => by
      obtain ⟨c, _, rfl⟩ := List.mem_map.mp hx
      cases c <;> rfl)]
    simp
  refine ⟨?_, fun c => by cases c <;> rfl, ?_⟩
  · intro cbs
    unfold runBurstClosures transactionRun
    rw [hrets]
    have hmap : cbs.map (fun c => (registerWrap c).2) =
        cbs.map (fun c =>
          match c with
          | CbOutcome.ok => FutureState.resolvedOk
          | CbOutcome.throws e => FutureState.rejected e) := by
      induction cbs with
      | nil => rfl
      | cons c rest ih =>
        simp only [List.map_cons, ih]
        cases c <;> rfl
    rw [hmap]
  · intro raws
    unfold transactionRun
    cases h : (runClosureList raws).2 <;> simp [h]

/-- C7, counterexample. `objectStore` pushes its create intent but
requests no flush at all: on an idle handle it leaves the coalescing
flag unset (whereas the `requestToCommit` of a data operation sets it), so no
deferred continuation is scheduled on its behalf; and `deleteObjectStore`
invokes the commit pass directly and immediately — it runs even while a
flush is already pending (`isCommitRequested = true`), in which case
`requestToCommit` would have scheduled nothing.  The claim asserts all
three schema-declaring calls request a flush through the same coalescing
point used by data operations. -/
theorem C7_counterexample :
    objectStoreCall idbInit "s1" [] = ⟨[⟨"s1", .create⟩], [], [], false⟩ ∧
    (objectStoreCall idbInit "s1" []).isCommitRequested = false ∧
    (requestToCommit idbInit (some ⟨"s1", .readonly, 0⟩)).1.isCommitRequested = true ∧
    deleteObjectStoreCall ⟨[], [], [], true⟩ ⟨1, ⟨[]⟩⟩ "nope" =
      .ok (⟨[], [], [], true⟩, ⟨1, ⟨[]⟩⟩, [Event.openSession none]) := by decide

/-- C7, amended. `objectStore` only pushes its intents onto the
schema ledgers — it touches neither the operation queue nor the
coalescing flag and requests no flush (its intents are committed by the
next flush-triggering call); `deleteObjectStore` and `deleteIndex` push
their intent and invoke the commit pass directly, bypassing
the `requestToCommit` coalescing; only data operations request the
deferred coalesced flush, setting the flag when idle. -/
theorem C7_amended :
    (∀ (s : IdbState) (name : StoreName) (indices : List IndexName),
      (objectStoreCall s name indices).isCommitRequested = s.isCommitRequested ∧
      (objectStoreCall s name indices).reqs = s.reqs ∧
      (objectStoreCall s name indices).upgReqs = s.upgReqs ++ [⟨name, .create⟩]) ∧
    (∀ (s : IdbState) (db : EngineDb) (name : StoreName),
      deleteObjectStoreCall s db name =
        commit { s with upgReqs := s.upgReqs ++ [⟨name, .delete⟩] } db) ∧
    (∀ (s : IdbState) (db : EngineDb) (os : StoreName) (idx : IndexName),
      deleteIndexCall s db os idx =
        commit { s with upgIReqs := addUpgIRec s.upgIReqs os ⟨idx, .delete⟩ } db) ∧
    (∀ (s : IdbState) (r : Req), s.isCommitRequested = false →
      requestToCommit s (some r) =
        ({ s with reqs := s.reqs ++ [r], isCommitRequested := true }, true)) := by
  have haux : ∀ (name : StoreName) (indices : List IndexName) (st : IdbState),
      (indices.foldl (fun st idx =>
          { st with upgIReqs := addUpgIRec st.upgIReqs name ⟨idx, .create⟩ }) st).isCommitRequested
        = st.isCommitRequested ∧
      (indices.foldl (fun st idx =>
          { st with upgIReqs := addUpgIRec st.upgIReqs name ⟨idx, .create⟩ }) st).reqs = st.reqs ∧
      (indices.foldl (fun st idx =>
          { st with upgIReqs := addUpgIRec st.upgIReqs name ⟨idx, .create⟩ }) st).upgReqs
        = st.upgReqs := by
    intro name indices
    induction indices with
    | nil => exact fun st => ⟨rfl, rfl, rfl⟩
    | cons i rest ih =>
      intro st
      exact ih _
  refine ⟨?_, fun s db name => rfl, fun s db os idx => rfl, ?_⟩
  · intro s name indices
    unfold objectStoreCall
    exact haux name indices _
  · intro s r h
    unfold requestToCommit
    simp [h]

/-- Witness for C7 (amended): a data registration from the idle state
sets the coalescing flag; the schema-declaring call facts are closed. -/
theorem C7_amended_witness :
    requestToCommit idbInit (some ⟨"a", .readonly, 9⟩) =
      (⟨[], [], [⟨"a", .readonly, 9⟩], true⟩, true) := by
  rw [C7_amended.2.2.2 idbInit ⟨"a", .readonly, 9⟩ rfl]
  decide

end IdbModel
